import Mathlib

/-!
Verification development for the GenifyAI code-intelligence backend.

The definitions below are a shallow embedding of the program's core:
the parse cache (parsers/cache.ts), the extractor registry
(parsers/registry.ts), the shared shape of the per-language
extractors' parseFile and parseFileForSymbol (parsers/typescript.ts,
parsers/solidity.ts, and the python/html/css/vue modules), the export
resolver (parsers/exportResolver.ts), the compound-document (.vue)
extractor's section handling, and the fuzzy-search recall and merge
pipeline (tools/searchFuzzy.ts).

File-system access (stat, read), module-path probing and the
tree-sitter parse of a source string are modelled as explicit
environment parameters: they are the exact inputs those functions
consume.  Everything written here mirrors the TypeScript source
statement by statement; JS-specific behaviour (truthiness of empty
strings, Map insertion-order semantics, Set-based dedup) is modelled
explicitly and noted where it appears.
-/

/-! Data model (parsers/types.ts). -/

structure SymbolLocation where
  startLine : Nat
  endLine : Nat
  startCol : Nat
  endCol : Nat
deriving DecidableEq, Repr

/-- SymbolKind is a closed string union in the source; we keep the strings. -/
abbrev SymbolKind := String

structure SymbolInfo where
  name : String
  kind : SymbolKind
  file : String
  location : SymbolLocation
  range : String
  signature : String
  language : String
deriving DecidableEq, Repr

inductive ExportKind where
  | named
  | default
  | all
deriving DecidableEq, Repr

structure ExportInfo where
  kind : ExportKind
  localName : Option String
  exportedName : Option String
  source : Option String
  location : SymbolLocation
deriving DecidableEq, Repr

structure ParseResult where
  symbols : List SymbolInfo
  exports : List ExportInfo
  errors : List String
deriving DecidableEq, Repr

structure ResolvedExport where
  originalFile : String
  originalName : String
  resolvedFile : String
  resolvedSymbol : Option SymbolInfo
  exportChain : List String
deriving DecidableEq, Repr

/-! String helpers mirroring the JS string primitives used by the source. -/

/-- JS String.prototype.includes at the character-list level:
does needle occur contiguously in hay? -/
def charsContains (hay needle : List Char) : Bool :=
  needle.isPrefixOf hay ||
    match hay with
    | [] => false
    | _ :: rest => charsContains rest needle

/-- JS s.includes(sub). -/
def strIncludes (s sub : String) : Bool :=
  charsContains s.data sub.data

/-- JS String.prototype.toLowerCase on the ASCII alphabet, character by
character (the only characters the matchers compare). -/
def strToLower (s : String) : String :=
  String.mk (s.data.map Char.toLower)

/-- utils/fileReader.ts formatRange: the bracketed 1-based inclusive span. -/
def formatRange (startLine endLine : Nat) : String :=
  "[" ++ toString startLine ++ ":" ++ toString endLine ++ "]"

/-! Association-list model of a JS Map: set updates an existing key in
place (keeping its position) and otherwise appends; get scans for the
key; delete removes it.  Keyed access only, so list order models the
Map's insertion order. -/

def mapLookup {α : Type} (k : String) : List (String × α) → Option α
  | [] => none
  | (k1, v) :: rest => if k1 == k then some v else mapLookup k rest

def mapSet {α : Type} (k : String) (v : α) : List (String × α) → List (String × α)
  | [] => [(k, v)]
  | (k1, v1) :: rest => if k1 == k then (k1, v) :: rest else (k1, v1) :: mapSet k v rest

def mapDelete {α : Type} (k : String) : List (String × α) → List (String × α)
  | [] => []
  | (k1, v1) :: rest => if k1 == k then rest else (k1, v1) :: mapDelete k rest

/-! Parse cache (parsers/cache.ts). -/

structure CacheEntry where
  /-- fs.statSync(..).mtimeMs; only compared for equality, so a Nat stands
  in for the JS numeric timestamp. -/
  mtime : Nat
  result : ParseResult
deriving DecidableEq, Repr

abbrev Cache := List (String × CacheEntry)

/-- The file system as the extractors see it: statMtime models
fs.statSync(toAbsolute path).mtimeMs (none = stat throws), readFile
models readFileContent (none = read throws and null is returned). -/
structure FsModel where
  statMtime : String → Option Nat
  readFile : String → Option String

/-- parsers/cache.ts getCachedResult: on a hit, re-stat the file; return
the stored outcome only when the current mtime equals the stored one;
on mismatch or stat failure delete the entry and report absent.
Returns the reported outcome and the updated cache map. -/
def getCachedResult (fs : FsModel) (cache : Cache) (filePath : String) :
    Option ParseResult × Cache :=
  match mapLookup filePath cache with
  | none => (none, cache)
  | some entry =>
    match fs.statMtime filePath with
    | some currentMtime =>
      if currentMtime == entry.mtime then (some entry.result, cache)
      else (none, mapDelete filePath cache)
    | none => (none, mapDelete filePath cache)

/-- parsers/cache.ts setCachedResult: re-stat and only persist when the
stat succeeds (a file that vanished between read and cache-write is not
cached). -/
def setCachedResult (fs : FsModel) (cache : Cache) (filePath : String)
    (result : ParseResult) : Cache :=
  match fs.statMtime filePath with
  | some m => mapSet filePath ⟨m, result⟩ cache
  | none => cache

/-! Shared shape of the five non-compound extractors' parseFile
(typescript.ts 268-299, solidity.ts 110-138, and the python, html and
css modules, which have the identical body).  The collect parameter is
the tree-sitter parse plus the recursive symbol/export collection: a
function of the file path and source text returning the collected
symbols and exports, or an error message when the tree build throws. -/

def parseFileGen (fs : FsModel)
    (collect : String → String → Except String (List SymbolInfo × List ExportInfo))
    (cache : Cache) (filePath : String) : ParseResult × Cache :=
  match getCachedResult fs cache filePath with
  | (some cached, cache1) => (cached, cache1)
  | (none, cache1) =>
    match fs.readFile filePath with
    | none => (⟨[], [], ["Failed to read file: " ++ filePath]⟩, cache1)
    | some sourceCode =>
      -- the JS guard is if (!sourceCode): the empty string is falsy and is
      -- treated exactly like a failed read
      if sourceCode == "" then
        (⟨[], [], ["Failed to read file: " ++ filePath]⟩, cache1)
      else
        match collect filePath sourceCode with
        | .ok (symbols, exports) =>
          let result : ParseResult := ⟨symbols, exports, []⟩
          (result, setCachedResult fs cache1 filePath result)
        | .error e =>
          (⟨[], [], ["Failed to parse file: " ++ filePath ++ " - " ++ toString e]⟩, cache1)

/-! parseFileForSymbol.  typescript.ts 301-313 filters case-sensitively
(String.prototype.includes); solidity.ts 140-151 lowercases both sides,
and the python, html, css and vue modules repeat solidity's body
verbatim. -/

/-- typescript.ts name/type predicate: s.name === symbolName ||
s.name.includes(symbolName), with an optional exact kind filter. -/
def tsSymbolFilter (symbolName : String) (symbolType : Option SymbolKind)
    (s : SymbolInfo) : Bool :=
  (s.name == symbolName || strIncludes s.name symbolName) &&
    (match symbolType with
     | none => true
     | some t => s.kind == t)

/-- solidity.ts (and python/html/css/vue) name/type predicate:
s.name.toLowerCase().includes(query.toLowerCase()), with an optional
exact kind filter. -/
def ciSymbolFilter (query : String) (type : Option SymbolKind)
    (s : SymbolInfo) : Bool :=
  strIncludes (strToLower s.name) (strToLower query) &&
    (match type with
     | none => true
     | some t => s.kind == t)

/-- The spec's own matching predicate, taken from its words: the query as
a case-insensitive substring of the name, and, when a kind is supplied,
an exact kind match.  Kept separate from the code's predicates so the
two can be compared. -/
def specSymbolMatch (query : String) (kind : Option SymbolKind)
    (s : SymbolInfo) : Bool :=
  strIncludes (strToLower s.name) (strToLower query) &&
    (match kind with
     | none => true
     | some t => s.kind == t)

def TS.parseFileForSymbol (fs : FsModel)
    (collect : String → String → Except String (List SymbolInfo × List ExportInfo))
    (cache : Cache) (filePath symbolName : String)
    (symbolType : Option SymbolKind) : List SymbolInfo × Cache :=
  let (result, cache1) := parseFileGen fs collect cache filePath
  (result.symbols.filter (tsSymbolFilter symbolName symbolType), cache1)

def Solidity.parseFileForSymbol (fs : FsModel)
    (collect : String → String → Except String (List SymbolInfo × List ExportInfo))
    (cache : Cache) (filePath query : String)
    (type : Option SymbolKind) : List SymbolInfo × Cache :=
  let (result, cache1) := parseFileGen fs collect cache filePath
  (result.symbols.filter (ciSymbolFilter query type), cache1)

/-! Extractor registry (parsers/registry.ts). -/

structure LanguageParser where
  language : String
  extensions : List String
deriving DecidableEq, Repr

abbrev Registry := List (String × LanguageParser)

/-- registry.ts registerParser: insert the parser under each declared
extension (last registration for an extension wins via Map.set). -/
def registerParser (parsers : Registry) (p : LanguageParser) : Registry :=
  p.extensions.foldl (fun m ext => mapSet ext p m) parsers

/-- JS filePath.substring(filePath.lastIndexOf(\x27.\x27)): the suffix from
the last dot (dot included), or the whole string when there is no dot
(lastIndexOf is -1 and substring clamps it to 0).  No lowercasing is
performed. -/
def finalExtChars : List Char → Option (List Char)
  | [] => none
  | c :: rest =>
    match finalExtChars rest with
    | some suffix => some suffix
    | none => if c == '.' then some (c :: rest) else none

def finalExt (filePath : String) : String :=
  match finalExtChars filePath.data with
  | some suffix => String.mk suffix
  | none => filePath

/-- registry.ts getParserForFile: look the verbatim final extension up in
the registry map. -/
def getParserForFile (parsers : Registry) (filePath : String) :
    Option LanguageParser :=
  mapLookup (finalExt filePath) parsers

/-! Export resolver (parsers/exportResolver.ts).  parseFile here is the
registry-level dispatch (parsers/index.ts) and resolveModulePath probes
the file system for extension and index-file candidates; both consume
only the file system and the extractors, so they enter as an
environment.  The JS visited Set is passed by reference and mutated, so
the embedding threads the updated set through every call and loop
iteration, and each function returns it alongside its result. -/

structure ResolverEnv where
  parseFile : String → ParseResult
  resolveModulePath : String → String → Option String

def MAX_DEPTH : Nat := 10

mutual

/-- exportResolver.ts followExport: fail when the depth exceeds
MAX_DEPTH or the file:name pair was already visited; otherwise parse,
prefer an exact local symbol, and otherwise scan the export records in
declaration order (followExportScan). -/
def followExport (env : ResolverEnv) (filePath exportedName : String)
    (visited : List String) (depth : Nat) :
    Option ResolvedExport × List String :=
  if depth > MAX_DEPTH then (none, visited)
  else
    let key := filePath ++ ":" ++ exportedName
    if visited.contains key then (none, visited)
    else
      let visited := key :: visited
      let result := env.parseFile filePath
      if result.errors != [] then (none, visited)
      else
        match result.symbols.find? (fun s => s.name == exportedName) with
        | some localSymbol =>
          (some ⟨filePath, exportedName, filePath, some localSymbol, [filePath]⟩, visited)
        | none =>
          followExportScan env filePath exportedName result.symbols result.exports visited depth
termination_by (MAX_DEPTH + 1 - depth, 1, 0)

/-- The for-loop of followExport over the export records: the first
branch that resolves wins; a failed branch leaves its additions to the
visited set in place for the following iterations. -/
def followExportScan (env : ResolverEnv) (filePath exportedName : String)
    (symbols : List SymbolInfo) (exps : List ExportInfo)
    (visited : List String) (depth : Nat) :
    Option ResolvedExport × List String :=
  match exps with
  | [] => (none, visited)
  | exp :: rest =>
    let step : Option ResolvedExport × List String :=
      match exp.kind, exp.source with
      | ExportKind.named, some src =>
        -- export { X } from or export { X as Y } from; exp.source is
        -- truthy only when the specifier is nonempty
        if exp.exportedName == some exportedName && src != "" then
          match env.resolveModulePath filePath src with
          | some targetFile =>
            -- the callee returns (none, visited) at once when the depth
            -- bound is exceeded; that first check is mirrored here
            if depth + 1 > MAX_DEPTH then (none, visited)
            else
              followExport env targetFile (exp.localName.getD exportedName)
                visited (depth + 1)
          | none => (none, visited)
        else (none, visited)
      | ExportKind.all, some src =>
        -- export * from
        if src != "" then
          match env.resolveModulePath filePath src with
          | some targetFile =>
            if depth + 1 > MAX_DEPTH then (none, visited)
            else followExport env targetFile exportedName visited (depth + 1)
          | none => (none, visited)
        else (none, visited)
      | ExportKind.default, _ =>
        -- export default X matches only the literal name "default"
        if exportedName == "default" then
          match exp.localName with
          | some localName =>
            if localName != "" then
              match symbols.find? (fun s => s.name == localName) with
              | some localSymbol =>
                (some ⟨filePath, exportedName, filePath, some localSymbol, [filePath]⟩, visited)
              | none => (none, visited)
            else (none, visited)
          | none => (none, visited)
        else (none, visited)
      | _, _ => (none, visited)
    match step with
    | (some resolved, visited1) =>
      (some { resolved with exportChain := filePath :: resolved.exportChain }, visited1)
    | (none, visited1) =>
      followExportScan env filePath exportedName symbols rest visited1 depth
termination_by (MAX_DEPTH + 1 - depth, 0, exps.length)

end

/-- exportResolver.ts resolveSymbolThroughExports. -/
def resolveSymbolThroughExports (env : ResolverEnv)
    (filePath symbolName : String) : Option SymbolInfo :=
  match (followExport env filePath symbolName [] 0).1 with
  | some resolved => resolved.resolvedSymbol
  | none => none

mutual

/-- exportResolver.ts getAllReexportedSymbols: all local symbols plus,
for every wildcard export, the recursively aggregated symbols of the
resolved target, under the same depth bound and a visited set of files
(not file:name pairs). -/
def getAllReexportedSymbols (env : ResolverEnv) (filePath : String)
    (visited : List String) (depth : Nat) :
    List SymbolInfo × List String :=
  if depth > MAX_DEPTH then ([], visited)
  else if visited.contains filePath then ([], visited)
  else
    let visited := filePath :: visited
    let result := env.parseFile filePath
    if result.errors != [] then ([], visited)
    else
      let (reexported, visited1) :=
        getAllReexportedSymbolsScan env filePath result.exports visited depth
      (result.symbols ++ reexported, visited1)
termination_by (MAX_DEPTH + 1 - depth, 1, 0)

/-- The for-loop of getAllReexportedSymbols over the export records,
appending each wildcard target's aggregate in declaration order. -/
def getAllReexportedSymbolsScan (env : ResolverEnv) (filePath : String)
    (exps : List ExportInfo) (visited : List String) (depth : Nat) :
    List SymbolInfo × List String :=
  match exps with
  | [] => ([], visited)
  | exp :: rest =>
    let step : List SymbolInfo × List String :=
      match exp.kind, exp.source with
      | ExportKind.all, some src =>
        if src != "" then
          match env.resolveModulePath filePath src with
          | some targetFile =>
            -- the callee returns ([], visited) at once when the depth
            -- bound is exceeded; that first check is mirrored here
            if depth + 1 > MAX_DEPTH then ([], visited)
            else getAllReexportedSymbols env targetFile visited (depth + 1)
          | none => ([], visited)
        else ([], visited)
      | _, _ => ([], visited)
    let (restSymbols, visited2) :=
      getAllReexportedSymbolsScan env filePath rest step.2 depth
    (step.1 ++ restSymbols, visited2)
termination_by (MAX_DEPTH + 1 - depth, 0, exps.length)

end

/-! Fuzzy search (tools/searchFuzzy.ts). -/

structure FuzzyResult where
  file : String
  range : String
  symbol : Option String
  kind : Option String
  score : ℚ
  reasons : List String
deriving DecidableEq, Repr

/-- JS spread of a Set built from a list: dedup keeping first-occurrence
order. -/
def dedupFirst (xs : List String) : List String :=
  xs.foldl (fun acc r => if acc.contains r then acc else acc ++ [r]) []

/-- searchFuzzy.ts normalizeQuery: the query verbatim, lowercased,
whitespace-stripped, kebab-to-camel, camel-to-kebab and with the first
letter capitalized, deduplicated. -/
def removeWhitespace (s : String) : String :=
  String.mk (s.data.filter (fun c => !c.isWhitespace))

/-- replace dash followed by an ASCII lowercase letter with its
uppercase, scanning left to right past each replacement. -/
def kebabToCamelChars : List Char → List Char
  | [] => []
  | '-' :: c :: rest =>
    if c.isLower then c.toUpper :: kebabToCamelChars rest
    else '-' :: kebabToCamelChars (c :: rest)
  | c :: rest => c :: kebabToCamelChars rest

def kebabToCamel (s : String) : String :=
  String.mk (kebabToCamelChars s.data)

/-- insert a dash between an ASCII lowercase letter and an ASCII
uppercase letter (the whole result is lowercased afterwards). -/
def camelToKebabChars : List Char → List Char
  | a :: b :: rest =>
    if a.isLower && b.isUpper then a :: '-' :: camelToKebabChars (b :: rest)
    else a :: camelToKebabChars (b :: rest)
  | l => l

def camelToKebab (s : String) : String :=
  String.mk ((camelToKebabChars s.data).map Char.toLower)

def capitalizeFirst (s : String) : String :=
  match s.data with
  | [] => s
  | c :: rest => String.mk (c.toUpper :: rest)

def normalizeQuery (query : String) : List String :=
  dedupFirst [query, strToLower query, removeWhitespace query,
    kebabToCamel query, camelToKebab query, capitalizeFirst query]

/-- The symbol-recall loop body (searchFuzzy.ts 112-127): skip a symbol
whose file:name key was already seen, otherwise append a candidate
scored 0.9/definition_exact on a (case-insensitive) exact name match
and 0.7/definition_match otherwise. -/
def symbolRecallStep (query : String) (acc : List FuzzyResult × List String)
    (sym : SymbolInfo) : List FuzzyResult × List String :=
  let key := sym.file ++ ":" ++ sym.name
  if acc.2.contains key then acc
  else
    let isExact := sym.name == query || strToLower sym.name == strToLower query
    (acc.1 ++ [{ file := sym.file, range := sym.range, symbol := some sym.name,
                 kind := some sym.kind,
                 score := if isExact then 9/10 else 7/10,
                 reasons := [if isExact then "definition_exact" else "definition_match"] }],
     acc.2 ++ [key])

/-- Symbol Search as symbolRecall consumes it: a deterministic function
from the query variant to the returned symbol list (scope, limit and
followExports are fixed by the enclosing call). -/
structure SymbolSearchEnv where
  searchSymbol : String → List SymbolInfo

/-- searchFuzzy.ts symbolRecall: run Symbol Search for every query
variant and accumulate candidates, deduplicating across all variants by
the file:name key. -/
def symbolRecall (env : SymbolSearchEnv) (query : String) : List FuzzyResult :=
  let variants := normalizeQuery query
  (variants.foldl
    (fun acc variant => (env.searchSymbol variant).foldl (symbolRecallStep query) acc)
    ([], [])).1

/-- searchFuzzy.ts mergeAndSort dedup key: file and rendered location. -/
def mergeKey (r : FuzzyResult) : String :=
  r.file ++ ":" ++ r.range

/-- One iteration of the mergeAndSort dedup loop: a new key is appended;
on a collision the higher-scoring candidate is kept (ties keep the
incumbent) and the reason lists are unioned, first occurrences first. -/
def mergeStep (map : List (String × FuzzyResult)) (r : FuzzyResult) :
    List (String × FuzzyResult) :=
  let key := mergeKey r
  match mapLookup key map with
  | none => map ++ [(key, r)]
  | some existing =>
    if existing.score < r.score then
      mapSet key { r with reasons := dedupFirst (r.reasons ++ existing.reasons) } map
    else
      mapSet key { existing with reasons := dedupFirst (existing.reasons ++ r.reasons) } map

/-- searchFuzzy.ts mergeAndSort: dedup by (file, range) keeping the
maximum score and the union of reasons, sort by descending score
(stable, as JS Array.prototype.sort is), truncate to limit. -/
def mergeAndSort (results : List FuzzyResult) (limit : Nat) : List FuzzyResult :=
  let map := results.foldl mergeStep []
  let merged := (map.map Prod.snd).mergeSort (fun a b => decide (b.score ≤ a.score))
  merged.take limit

/-- searchFuzzy.ts searchFuzzy: the four recall strategies are joined
with Promise.all, so one rejected strategy promise (modelled as .error)
rejects the whole call before any merging; only when all four resolve
are their candidate lists concatenated and merged. -/
def searchFuzzy
    (aliasResults symbolResults fileResults textResults :
      Except String (List FuzzyResult))
    (limit : Nat) : Except String (List FuzzyResult) := do
  let a ← aliasResults
  let s ← symbolResults
  let f ← fileResults
  let t ← textResults
  pure (mergeAndSort (a ++ s ++ f ++ t) limit)

/-! Compound-document (.vue) extractor (parsers/vue.ts).  The section
split and the template component scan are regex loops over the raw
text and are embedded concretely; the script-section extraction
(tree-sitter TypeScript parse plus collectScriptSymbols and
collectOptionsApiSymbols) and the style-section extraction (tree-sitter
CSS parse plus collectCssSymbols) call tree-sitter, which returns a
tree, never an exception, for every input string, so they enter as
total environment functions of the section content and its base
offset. -/

structure SfcBlock where
  content : String
  startLine : Nat
deriving DecidableEq, Repr

structure SfcBlocks where
  script : Option SfcBlock
  template : Option SfcBlock
  style : Option SfcBlock
deriving DecidableEq, Repr

def countNewlines (cs : List Char) : Nat :=
  cs.countP (fun c => c == '\n')

/-- first index at which needle occurs in hay, if any. -/
def firstMatchIdx (hay needle : List Char) : Option Nat :=
  if needle.isPrefixOf hay then some 0
  else
    match hay with
    | [] => none
    | _ :: rest => (firstMatchIdx rest needle).map (· + 1)

/-- split at the first closing angle bracket: the characters before it
and the characters after it. -/
def splitAtGt : List Char → Option (List Char × List Char)
  | [] => none
  | c :: rest =>
    if c == '>' then some ([], rest)
    else (splitAtGt rest).map (fun p => (c :: p.1, p.2))

def lowerChars (cs : List Char) : List Char :=
  cs.map Char.toLower

/-- One tagged-section match of vue.ts extractSfcBlocks: the first
case-insensitive occurrence of the opening tag, its attributes up to
the first closing angle bracket, the content lazily up to the first
closing tag, and the 1-based line on which the opening tag starts
(newlines before it plus one). -/
def findTag (sourceCode : String) (tag : String) : Option SfcBlock :=
  let cs := sourceCode.data
  match firstMatchIdx (lowerChars cs) ('<' :: tag.data) with
  | none => none
  | some idx =>
    let afterName := cs.drop (idx + 1 + tag.data.length)
    match splitAtGt afterName with
    | none => none
    | some (_attrs, afterOpen) =>
      match firstMatchIdx (lowerChars afterOpen) ('<' :: '/' :: (tag.data ++ ['>'])) with
      | none => none
      | some closeIdx =>
        some { content := String.mk (afterOpen.take closeIdx),
               startLine := countNewlines (cs.take idx) + 1 }

def extractSfcBlocks (sourceCode : String) : SfcBlocks :=
  { script := findTag sourceCode "script",
    template := findTag sourceCode "template",
    style := findTag sourceCode "style" }

def takeAlnum : List Char → List Char
  | [] => []
  | c :: rest => if c.isAlphanum then c :: takeAlnum rest else []

/-- vue.ts collectTemplateComponents: scan the template text for the
capitalized-tag regex; each match runs from an opening angle bracket
and an ASCII uppercase letter to the first closing angle bracket, the
component name is the maximal alphanumeric run, and the line number is
the count of newlines before the match plus one, offset into absolute
file coordinates.  Scanning resumes after each match.  The fuel
argument only bounds the number of scan steps so the recursion is
structural: every step consumes at least one character, so starting the
scan with the character count as fuel never exhausts it. -/
def scanTemplate (filePath : String) (baseOffset : Nat) :
    Nat → List Char → Nat → List SymbolInfo
  | 0, _, _ => []
  | _ + 1, [], _ => []
  | _ + 1, [_], _ => []
  | fuel + 1, c :: u :: rest2, nl =>
    if c == '<' && u.isUpper then
      match splitAtGt (u :: rest2) with
      | some (before, after) =>
        let tagName := String.mk (u :: takeAlnum rest2)
        let lineNum := nl + 1
        { name := tagName, kind := "component", file := filePath,
          location := ⟨lineNum + baseOffset, lineNum + baseOffset, 0, before.length + 2⟩,
          range := formatRange (lineNum + baseOffset) (lineNum + baseOffset),
          signature := "<" ++ tagName ++ ">",
          language := "vue" }
          :: scanTemplate filePath baseOffset fuel after (nl + countNewlines before)
      | none => scanTemplate filePath baseOffset fuel (u :: rest2) nl
    else
      scanTemplate filePath baseOffset fuel (u :: rest2) (if c == '\n' then nl + 1 else nl)

def collectTemplateComponents (templateContent : String) (filePath : String)
    (baseOffset : Nat) : List SymbolInfo :=
  scanTemplate filePath baseOffset templateContent.data.length templateContent.data 0

/-- The two tree-sitter-backed section extractions, as total functions of
the section content and its base offset. -/
structure VueEnv where
  scriptExtract : String → Nat → List SymbolInfo × List ExportInfo
  styleExtract : String → Nat → List SymbolInfo

/-- vue.ts parseFile body after the section split: script symbols and
exports, then template component references, then style selectors, each
computed from its own section only; no section records a file-level
error. -/
def vueParseBlocks (env : VueEnv) (filePath : String) (blocks : SfcBlocks) :
    ParseResult :=
  let scriptPart :=
    match blocks.script with
    | some b => env.scriptExtract b.content b.startLine
    | none => ([], [])
  let templateSymbols :=
    match blocks.template with
    | some b => collectTemplateComponents b.content filePath b.startLine
    | none => []
  let styleSymbols :=
    match blocks.style with
    | some b => env.styleExtract b.content b.startLine
    | none => []
  ⟨scriptPart.1 ++ templateSymbols ++ styleSymbols, scriptPart.2, []⟩

/-- vue.ts parseFile: the same cache/read shell as every extractor
around the compound body. -/
def Vue.parseFile (env : VueEnv) (fs : FsModel) (cache : Cache)
    (filePath : String) : ParseResult × Cache :=
  parseFileGen fs
    (fun fp src =>
      let r := vueParseBlocks env fp (extractSfcBlocks src)
      .ok (r.symbols, r.exports))
    cache filePath

/-- vue.ts parseFileForSymbol: the case-insensitive filter over the
compound parse. -/
def Vue.parseFileForSymbol (env : VueEnv) (fs : FsModel) (cache : Cache)
    (filePath query : String) (type : Option SymbolKind) :
    List SymbolInfo × Cache :=
  let (result, cache1) := Vue.parseFile env fs cache filePath
  (result.symbols.filter (ciSymbolFilter query type), cache1)

/-! Concrete fixtures used by the theorems below. -/

/-- a SymbolRecord as the scripting extractor would emit it. -/
def mkSym (name file : String) (line : Nat) : SymbolInfo :=
  { name := name, kind := "function", file := file,
    location := ⟨line, line + 1, 0, 1⟩, range := formatRange line (line + 1),
    signature := "function " ++ name ++ "()", language := "typescript" }

/-- an export record for export X from src (local and exported name X). -/
def namedReexport (name src : String) : ExportInfo :=
  ⟨ExportKind.named, some name, some name, some src, ⟨1, 1, 0, 0⟩⟩

/-- an export record for export * from src. -/
def wildcardExport (src : String) : ExportInfo :=
  ⟨ExportKind.all, none, none, some src, ⟨1, 1, 0, 0⟩⟩

/-- Two files re-exporting the same name from each other: A exports X
from B and B exports X from A, with no local definition anywhere. -/
def cycleEnv : ResolverEnv :=
  { parseFile := fun f =>
      if f == "A.ts" then ⟨[], [namedReexport "X" "./B"], []⟩
      else if f == "B.ts" then ⟨[], [namedReexport "X" "./A"], []⟩
      else ⟨[], [], ["Failed to read file: " ++ f]⟩,
    resolveModulePath := fun _ src =>
      if src == "./B" then some "B.ts"
      else if src == "./A" then some "A.ts"
      else none }

/-- A wildcard re-export chain three files deep, each file exporting two
unique symbols. -/
def chainEnv : ResolverEnv :=
  { parseFile := fun f =>
      if f == "A.ts" then
        ⟨[mkSym "a1" "A.ts" 1, mkSym "a2" "A.ts" 3], [wildcardExport "./B"], []⟩
      else if f == "B.ts" then
        ⟨[mkSym "b1" "B.ts" 1, mkSym "b2" "B.ts" 3], [wildcardExport "./C"], []⟩
      else if f == "C.ts" then
        ⟨[mkSym "c1" "C.ts" 1, mkSym "c2" "C.ts" 3], [], []⟩
      else ⟨[], [], ["Failed to read file: " ++ f]⟩,
    resolveModulePath := fun _ src =>
      if src == "./B" then some "B.ts"
      else if src == "./C" then some "C.ts"
      else none }

/-- a collect function whose parse of any source yields a single symbol
named foo. -/
def collectFoo : String → String → Except String (List SymbolInfo × List ExportInfo) :=
  fun _ _ => .ok ([mkSym "foo" "a.ts" 3], [])

def fsFoo : FsModel :=
  ⟨fun _ => some 1, fun _ => some "function foo()"⟩

/-- the scripting extractor as registered: lowercase extensions. -/
def typescriptParserReg : LanguageParser :=
  ⟨"typescript", [".ts", ".tsx", ".js", ".jsx"]⟩

def registryTS : Registry :=
  registerParser [] typescriptParserReg

/-- a Symbol Search that returns, for the verbatim query, two symbols
sharing file and name but with different start lines. -/
def dupEnv : SymbolSearchEnv :=
  ⟨fun q => if q == "flipCard" then
      [mkSym "flipCard" "cards.ts" 10, mkSym "flipCard" "cards.ts" 42]
    else []⟩

/-- the key the symbol-recall dedup set stores for a candidate. -/
def candidateKey (c : FuzzyResult) : String :=
  c.file ++ ":" ++ c.symbol.getD ""

def aliasHitCandidate : FuzzyResult :=
  { file := "cards.ts", range := "[3:5]", symbol := some "flipCard",
    kind := some "function", score := 1, reasons := ["alias_hit"] }

/-- a compound-document environment whose script and style extractions
produce nothing (a section from which extraction completely fails). -/
def failingScriptVueEnv : VueEnv :=
  ⟨fun _ _ => ([], []), fun _ _ => []⟩

def vueSource : String :=
  "<template><A/></template><script>(</script>"

def vueFs : FsModel :=
  ⟨fun _ => some 1, fun _ => some vueSource⟩

/-- Parse caches whose stored outcomes are all error-free; the cache
becomes populated only through setCachedResult on a successful parse,
so this invariant holds for every reachable cache state. -/
def CacheWF (cache : Cache) : Prop :=
  ∀ kv ∈ cache, kv.2.result.errors = []

/-- the invariant of the mergeAndSort dedup map: keys are unique and
each stored candidate's dedup key is its map key. -/
def MergedWF (map : List (String × FuzzyResult)) : Prop :=
  (map.map Prod.fst).Nodup ∧ ∀ kv ∈ map, mergeKey kv.2 = kv.1

/-- the spec's merge example: a symbol-recall candidate scored 0.7. -/
def definitionMatchCandidate : FuzzyResult :=
  { file := "cards.ts", range := "[3:5]", symbol := some "flipCard",
    kind := some "function", score := 7/10, reasons := ["definition_match"] }

/-- the spec's merge example: an alias candidate scored 0.9 at the same
file and location. -/
def aliasMergeCandidate : FuzzyResult :=
  { file := "cards.ts", range := "[3:5]", symbol := none, kind := none,
    score := 9/10, reasons := ["alias_hit"] }

/-! Helper lemmas about the map model. -/

lemma mapLookup_mem {α : Type} (k : String) (v : α) :
    ∀ (m : List (String × α)), mapLookup k m = some v → (k, v) ∈ m := by
  intro m
  induction m with
  | nil => intro h; simp [mapLookup] at h
  | cons kv rest ih =>
    intro h
    rw [mapLookup] at h
    by_cases hk : kv.1 == k
    · rw [if_pos hk] at h
      injection h with h1
      have hk1 : kv.1 = k := by simpa using hk
      have hkv : kv = (k, v) := Prod.ext hk1 h1
      rw [← hkv]
      exact List.mem_cons_self kv rest
    · rw [if_neg hk] at h
      right
      exact ih h

lemma mem_mapDelete {α : Type} (k : String) (kv : String × α) :
    ∀ (m : List (String × α)), kv ∈ mapDelete k m → kv ∈ m := by
  intro m
  induction m with
  | nil => intro h; simp [mapDelete] at h
  | cons kv1 rest ih =>
    intro h
    rw [mapDelete] at h
    by_cases hk : kv1.1 == k
    · rw [if_pos hk] at h
      exact List.mem_cons_of_mem kv1 h
    · rw [if_neg hk] at h
      rcases List.mem_cons.1 h with h1 | h1
      · exact h1 ▸ List.mem_cons_self kv1 rest
      · exact List.mem_cons_of_mem kv1 (ih h1)

lemma mem_mapSet {α : Type} (k : String) (v : α) (kv : String × α) :
    ∀ (m : List (String × α)), kv ∈ mapSet k v m → kv.2 = v ∨ kv ∈ m := by
  intro m
  induction m with
  | nil =>
    intro h
    rw [mapSet] at h
    rcases List.mem_cons.1 h with h1 | h1
    · left; rw [h1]
    · simp at h1
  | cons kv1 rest ih =>
    intro h
    rw [mapSet] at h
    by_cases hk : kv1.1 == k
    · rw [if_pos hk] at h
      rcases List.mem_cons.1 h with h1 | h1
      · left; rw [h1]
      · right; exact List.mem_cons_of_mem kv1 h1
    · rw [if_neg hk] at h
      rcases List.mem_cons.1 h with h1 | h1
      · right; exact h1 ▸ List.mem_cons_self kv1 rest
      · rcases ih h1 with h2 | h2
        · left; exact h2
        · right; exact List.mem_cons_of_mem kv1 h2

/-- getCachedResult reports a stored outcome only on an exact mtime
match, and then leaves the cache untouched. -/
lemma getCachedResult_some (fs : FsModel) (cache : Cache) (filePath : String)
    (r : ParseResult) (c2 : Cache)
    (h : getCachedResult fs cache filePath = (some r, c2)) :
    ∃ entry, mapLookup filePath cache = some entry ∧
      fs.statMtime filePath = some entry.mtime ∧
      r = entry.result ∧ c2 = cache := by
  cases hl : mapLookup filePath cache with
  | none => simp [getCachedResult, hl] at h
  | some entry =>
    cases hs : fs.statMtime filePath with
    | none => simp [getCachedResult, hl, hs] at h
    | some m =>
      simp only [getCachedResult, hl, hs] at h
      by_cases hm : m == entry.mtime
      · rw [if_pos hm] at h
        refine ⟨entry, rfl, ?_, ?_, ?_⟩
        · congr 1; simpa using hm
        · injection h with h1 h2; injection h1 with h3; rw [h3]
        · injection h with h1 h2; rw [h2]
      · rw [if_neg hm] at h
        simp at h

/-- the cache getCachedResult returns is the original map or the
original map with the key deleted. -/
lemma getCachedResult_snd (fs : FsModel) (cache : Cache) (filePath : String) :
    (getCachedResult fs cache filePath).2 = cache ∨
    (getCachedResult fs cache filePath).2 = mapDelete filePath cache := by
  cases hl : mapLookup filePath cache with
  | none => left; simp only [getCachedResult, hl]
  | some entry =>
    cases hs : fs.statMtime filePath with
    | none => right; simp only [getCachedResult, hl, hs]
    | some m =>
      simp only [getCachedResult, hl, hs]
      by_cases hm : m == entry.mtime
      · rw [if_pos hm]; left; rfl
      · rw [if_neg hm]; right; rfl

/-- C1: followExport terminates on every export graph (it is a total
function of this development); it returns none whenever the recursion
depth exceeds the fixed bound of 10, or whenever the file:name pair
being resolved is already in the visited set; and on the two-file
re-export cycle (A exports X from B, B exports X from A) it returns
none instead of looping. -/
theorem followExport_depth_visited_cycle :
    (∀ (env : ResolverEnv) (filePath exportedName : String)
       (visited : List String) (depth : Nat),
       MAX_DEPTH < depth →
       (followExport env filePath exportedName visited depth).1 = none)
  ∧ (∀ (env : ResolverEnv) (filePath exportedName : String)
       (visited : List String) (depth : Nat),
       visited.contains (filePath ++ ":" ++ exportedName) = true →
       (followExport env filePath exportedName visited depth).1 = none)
  ∧ (followExport cycleEnv "A.ts" "X" [] 0).1 = none := by
  refine ⟨?_, ?_, ?_⟩
  · intro env filePath exportedName visited depth h
    rw [followExport]
    simp [h]
  · intro env filePath exportedName visited depth h
    rw [followExport]
    have h2 : (filePath ++ ":" ++ exportedName) ∈ visited := by simpa using h
    by_cases hd : depth > MAX_DEPTH
    · simp [hd]
    · simp [hd, h2]
  · simp [followExport, followExportScan, cycleEnv, namedReexport, MAX_DEPTH]

/-- C1 witness: the depth guard at depth 11 and the visited guard with
the pair already recorded, each applied at concrete inputs. -/
theorem followExport_depth_visited_cycle_witness :
    (followExport cycleEnv "A.ts" "X" [] 11).1 = none ∧
    (followExport cycleEnv "A.ts" "X" ["A.ts:X"] 0).1 = none :=
  ⟨followExport_depth_visited_cycle.1 cycleEnv "A.ts" "X" [] 11 (by decide),
   followExport_depth_visited_cycle.2.1 cycleEnv "A.ts" "X" ["A.ts:X"] 0 (by decide)⟩

/-- C6: getAllReexportedSymbols returns the file's local symbols plus
the recursively aggregated symbols of every wildcard re-export target,
bounded by the depth limit of 10 and a visited-file set; on the
three-file wildcard chain with two unique symbols per file, the root
yields all six symbols with no duplicates. -/
theorem getAllReexportedSymbols_aggregation :
    (∀ (env : ResolverEnv) (filePath : String) (visited : List String) (depth : Nat),
       MAX_DEPTH < depth →
       (getAllReexportedSymbols env filePath visited depth).1 = [])
  ∧ (∀ (env : ResolverEnv) (filePath : String) (visited : List String) (depth : Nat),
       visited.contains filePath = true →
       (getAllReexportedSymbols env filePath visited depth).1 = [])
  ∧ (getAllReexportedSymbols chainEnv "A.ts" [] 0).1
      = [mkSym "a1" "A.ts" 1, mkSym "a2" "A.ts" 3, mkSym "b1" "B.ts" 1,
         mkSym "b2" "B.ts" 3, mkSym "c1" "C.ts" 1, mkSym "c2" "C.ts" 3]
  ∧ ((getAllReexportedSymbols chainEnv "A.ts" [] 0).1.map SymbolInfo.name).Nodup := by
  have hchain : (getAllReexportedSymbols chainEnv "A.ts" [] 0).1
      = [mkSym "a1" "A.ts" 1, mkSym "a2" "A.ts" 3, mkSym "b1" "B.ts" 1,
         mkSym "b2" "B.ts" 3, mkSym "c1" "C.ts" 1, mkSym "c2" "C.ts" 3] := by
    simp [getAllReexportedSymbols, getAllReexportedSymbolsScan, chainEnv,
      wildcardExport, MAX_DEPTH]
  refine ⟨?_, ?_, hchain, ?_⟩
  · intro env filePath visited depth h
    rw [getAllReexportedSymbols]
    simp [h]
  · intro env filePath visited depth h
    rw [getAllReexportedSymbols]
    have h2 : filePath ∈ visited := by simpa using h
    by_cases hd : depth > MAX_DEPTH
    · simp [hd]
    · simp [hd, h2]
  · rw [hchain]
    simp [mkSym]

/-- C6 witness: the depth guard at depth 11 and the visited guard with
the root file already visited, each applied at concrete inputs. -/
theorem getAllReexportedSymbols_aggregation_witness :
    (getAllReexportedSymbols chainEnv "A.ts" [] 11).1 = [] ∧
    (getAllReexportedSymbols chainEnv "A.ts" ["A.ts"] 0).1 = [] :=
  ⟨getAllReexportedSymbols_aggregation.1 chainEnv "A.ts" [] 11 (by decide),
   getAllReexportedSymbols_aggregation.2.1 chainEnv "A.ts" ["A.ts"] 0 (by decide)⟩

/-- C2: a cache get returns the stored outcome only when the
freshly-read mtime equals the stored one; on a mismatch or a stat
failure the entry is evicted and absent is reported; consequently a
parseFile after the file's mtime changed parses the current content
afresh and returns the pre-change outcome only if the new parse happens
to equal it. -/
theorem cache_get_mtime_invalidation :
    (∀ (fs : FsModel) (cache : Cache) (filePath : String) (entry : CacheEntry),
       mapLookup filePath cache = some entry →
       fs.statMtime filePath ≠ some entry.mtime →
       getCachedResult fs cache filePath = (none, mapDelete filePath cache))
  ∧ (∀ (fs : FsModel) (cache : Cache) (filePath : String)
       (r : ParseResult) (c2 : Cache),
       getCachedResult fs cache filePath = (some r, c2) →
       ∃ entry, mapLookup filePath cache = some entry ∧
         fs.statMtime filePath = some entry.mtime ∧
         r = entry.result ∧ c2 = cache)
  ∧ (∀ (fs : FsModel)
       (collect : String → String → Except String (List SymbolInfo × List ExportInfo))
       (cache : Cache) (filePath : String) (entry : CacheEntry)
       (src : String) (symbols : List SymbolInfo) (exports : List ExportInfo),
       mapLookup filePath cache = some entry →
       fs.statMtime filePath ≠ some entry.mtime →
       fs.readFile filePath = some src →
       src ≠ "" →
       collect filePath src = .ok (symbols, exports) →
       (parseFileGen fs collect cache filePath).1 = ⟨symbols, exports, []⟩ ∧
       (ParseResult.mk symbols exports [] ≠ entry.result →
        (parseFileGen fs collect cache filePath).1 ≠ entry.result)) := by
  have hmiss : ∀ (fs : FsModel) (cache : Cache) (filePath : String) (entry : CacheEntry),
      mapLookup filePath cache = some entry →
      fs.statMtime filePath ≠ some entry.mtime →
      getCachedResult fs cache filePath = (none, mapDelete filePath cache) := by
    intro fs cache filePath entry hl hs
    cases hst : fs.statMtime filePath with
    | none => simp [getCachedResult, hl, hst]
    | some m =>
      have hm : ¬(m == entry.mtime) = true := by
        intro hb
        exact hs (by rw [hst]; congr 1; simpa using hb)
      simp [getCachedResult, hl, hst, hm]
  refine ⟨hmiss, fun fs cache fp r c2 h => getCachedResult_some fs cache fp r c2 h, ?_⟩
  intro fs collect cache filePath entry src symbols exports hl hs hr hne hc
  have hfresh : (parseFileGen fs collect cache filePath).1 = ⟨symbols, exports, []⟩ := by
    have hg := hmiss fs cache filePath entry hl hs
    have hsrc : ¬(src == "") = true := by simpa using hne
    simp [parseFileGen, hg, hr, hsrc, hc]
  exact ⟨hfresh, fun hne2 => by rw [hfresh]; exact hne2⟩

/-- C2 witness: a file cached at mtime 1 whose on-disk mtime is now 2 is
evicted and reparsed from the new content. -/
theorem cache_get_mtime_invalidation_witness :
    (parseFileGen ⟨fun _ => some 2, fun _ => some "function bar()"⟩
      (fun _ _ => .ok ([mkSym "bar" "a.ts" 1], []))
      [("a.ts", ⟨1, ⟨[mkSym "foo" "a.ts" 3], [], []⟩⟩)] "a.ts").1
      = ⟨[mkSym "bar" "a.ts" 1], [], []⟩ :=
  (cache_get_mtime_invalidation.2.2
    ⟨fun _ => some 2, fun _ => some "function bar()"⟩
    (fun _ _ => .ok ([mkSym "bar" "a.ts" 1], []))
    [("a.ts", ⟨1, ⟨[mkSym "foo" "a.ts" 3], [], []⟩⟩)] "a.ts"
    ⟨1, ⟨[mkSym "foo" "a.ts" 3], [], []⟩⟩
    "function bar()" [mkSym "bar" "a.ts" 1] []
    (by simp [mapLookup])
    (by simp)
    rfl
    (by simp)
    rfl).1

/-- C7: for the non-compound extractors, a ParseOutcome with a nonempty
error list has no symbols and no exports, and carries exactly one error
string; and parseFile preserves the cache invariant that only
error-free outcomes are stored. -/
theorem parse_failure_total_per_file :
    ∀ (fs : FsModel)
      (collect : String → String → Except String (List SymbolInfo × List ExportInfo))
      (cache : Cache) (filePath : String),
      CacheWF cache →
      (((parseFileGen fs collect cache filePath).1.errors ≠ [] →
        (parseFileGen fs collect cache filePath).1.symbols = [] ∧
        (parseFileGen fs collect cache filePath).1.exports = [] ∧
        (parseFileGen fs collect cache filePath).1.errors.length = 1)
      ∧ CacheWF (parseFileGen fs collect cache filePath).2) := by
  intro fs collect cache filePath hwf
  have hwfget : CacheWF (getCachedResult fs cache filePath).2 := by
    rcases getCachedResult_snd fs cache filePath with h | h
    · rw [h]; exact hwf
    · rw [h]; intro kv hkv; exact hwf kv (mem_mapDelete filePath kv cache hkv)
  rcases hget : getCachedResult fs cache filePath with ⟨ro, c1⟩
  have hc1 : CacheWF c1 := by rw [hget] at hwfget; exact hwfget
  cases ro with
  | some cached =>
    rcases getCachedResult_some fs cache filePath cached c1 hget with
      ⟨entry, hl, _, hre, _⟩
    have hcached : cached.errors = [] := by
      rw [hre]
      exact hwf (filePath, entry) (mapLookup_mem filePath entry cache hl)
    constructor
    · intro herr
      rw [parseFileGen, hget] at herr
      exact absurd hcached herr
    · rw [parseFileGen, hget]
      exact hc1
  | none =>
    cases hr : fs.readFile filePath with
    | none =>
      constructor
      · intro _
        rw [parseFileGen, hget]
        simp [hr]
      · rw [parseFileGen, hget]
        simp only [hr]
        exact hc1
    | some src =>
      by_cases hsrc : src == ""
      · constructor
        · intro _
          rw [parseFileGen, hget]
          simp [hr, hsrc]
        · rw [parseFileGen, hget]
          simp only [hr, hsrc, if_true]
          exact hc1
      · cases hcol : collect filePath src with
        | ok pair =>
          constructor
          · intro herr
            rw [parseFileGen, hget] at herr
            simp [hr, hsrc, hcol] at herr
          · rw [parseFileGen, hget]
            simp only [hr, hsrc, hcol, Bool.false_eq_true, if_false]
            intro kv hkv
            rcases pair with ⟨symbols, exports⟩
            simp only [setCachedResult] at hkv
            cases hst : fs.statMtime filePath with
            | none => rw [hst] at hkv; exact hc1 kv hkv
            | some m =>
              rw [hst] at hkv
              rcases mem_mapSet filePath ⟨m, ⟨symbols, exports, []⟩⟩ kv c1 hkv with h2 | h2
              · rw [h2]
              · exact hc1 kv h2
        | error e =>
          constructor
          · intro _
            rw [parseFileGen, hget]
            simp [hr, hsrc, hcol]
          · rw [parseFileGen, hget]
            simp only [hr, hsrc, hcol, Bool.false_eq_true, if_false]
            exact hc1

/-- C7 witness: a read failure on an empty cache yields one error and
nothing else, and the cache stays well-formed. -/
theorem parse_failure_total_per_file_witness :
    ((parseFileGen ⟨fun _ => none, fun _ => none⟩ (fun _ _ => .ok ([], []))
        [] "a.ts").1.errors ≠ [] →
      (parseFileGen ⟨fun _ => none, fun _ => none⟩ (fun _ _ => .ok ([], []))
        [] "a.ts").1.symbols = [] ∧
      (parseFileGen ⟨fun _ => none, fun _ => none⟩ (fun _ _ => .ok ([], []))
        [] "a.ts").1.exports = [] ∧
      (parseFileGen ⟨fun _ => none, fun _ => none⟩ (fun _ _ => .ok ([], []))
        [] "a.ts").1.errors.length = 1)
    ∧ CacheWF (parseFileGen ⟨fun _ => none, fun _ => none⟩ (fun _ _ => .ok ([], []))
        [] "a.ts").2 :=
  parse_failure_total_per_file ⟨fun _ => none, fun _ => none⟩
    (fun _ _ => .ok ([], [])) [] "a.ts" (by simp [CacheWF])

lemma mapLookup_eq_none {α : Type} (k : String) :
    ∀ (m : List (String × α)), (∀ kv ∈ m, kv.1 ≠ k) → mapLookup k m = none := by
  intro m
  induction m with
  | nil => intro _; rfl
  | cons kv rest ih =>
    intro h
    rw [mapLookup]
    have hk : ¬(kv.1 == k) = true := by
      simpa using h kv (List.mem_cons_self kv rest)
    rw [if_neg hk]
    exact ih (fun kv2 h2 => h kv2 (List.mem_cons_of_mem kv h2))

/-- C9 counterexample: the registry lookup does not lowercase the final
extension.  With the scripting extractor registered under its lowercase
extensions, the paths a.TS and a.ts, whose final extensions differ only
in letter case, do not resolve to the same extractor: a.TS resolves to
none while a.ts resolves to the extractor. -/
theorem getParserForFile_case_counterexample :
    getParserForFile registryTS "a.TS" = none
  ∧ getParserForFile registryTS "a.ts" = some typescriptParserReg
  ∧ getParserForFile registryTS "a.TS" ≠ getParserForFile registryTS "a.ts" := by
  refine ⟨by decide, by decide, by decide⟩

/-- C9 amended: lookup is keyed by the path's verbatim final extension
(the substring from the last dot, with no lowercasing): two paths with
the same verbatim final extension resolve identically, a path whose
final extension is registered under no parser resolves to none, and in
particular an uppercase variant of a registered lowercase extension
resolves to none rather than to the same extractor. -/
theorem getParserForFile_verbatim_extension :
    (∀ (parsers : Registry) (f1 f2 : String),
       finalExt f1 = finalExt f2 →
       getParserForFile parsers f1 = getParserForFile parsers f2)
  ∧ (∀ (parsers : Registry) (filePath : String),
       (∀ kv ∈ parsers, kv.1 ≠ finalExt filePath) →
       getParserForFile parsers filePath = none)
  ∧ getParserForFile registryTS "a.TS" = none
  ∧ getParserForFile registryTS "a.ts" = some typescriptParserReg := by
  refine ⟨?_, ?_, by decide, by decide⟩
  · intro parsers f1 f2 h
    rw [getParserForFile, getParserForFile, h]
  · intro parsers filePath h
    exact mapLookup_eq_none (finalExt filePath) parsers h

/-- C9 amended witness: same-extension paths resolve identically, and a
path with an unregistered extension resolves to none. -/
theorem getParserForFile_verbatim_extension_witness :
    getParserForFile registryTS "a.ts" = getParserForFile registryTS "b/c.ts" ∧
    getParserForFile registryTS "a.TS" = none :=
  ⟨getParserForFile_verbatim_extension.1 registryTS "a.ts" "b/c.ts" (by decide),
   getParserForFile_verbatim_extension.2.1 registryTS "a.TS" (by decide)⟩

/-- C5 counterexample: the TypeScript extractor's parseFileForSymbol is
case-sensitive.  A file whose parse contains a symbol named foo yields
no match for the query FOO, although the spec's case-insensitive
substring predicate accepts it (the solidity/python/html/css/vue
extractors do match it). -/
theorem tsParseFileForSymbol_case_counterexample :
    (TS.parseFileForSymbol fsFoo collectFoo [] "a.ts" "FOO" none).1 = []
  ∧ specSymbolMatch "FOO" none (mkSym "foo" "a.ts" 3) = true
  ∧ (Solidity.parseFileForSymbol fsFoo collectFoo [] "a.ts" "FOO" none).1
      = [mkSym "foo" "a.ts" 3] := by
  refine ⟨by decide, by decide, by decide⟩

/-- C5 amended: the solidity, python, html, css and vue extractors
return exactly the symbols of the file's parse whose name contains the
query as a case-insensitive substring (with the exact kind filter when
a kind is supplied) — the spec's predicate; the TypeScript extractor
instead matches case-sensitively: it returns exactly the symbols whose
name equals the query or contains it as a case-sensitive substring,
with the same kind filter. -/
theorem parseFileForSymbol_filter_semantics :
    ∀ (fs : FsModel)
      (collect : String → String → Except String (List SymbolInfo × List ExportInfo))
      (env : VueEnv) (cache : Cache) (filePath q : String)
      (t : Option SymbolKind) (s : SymbolInfo),
      (s ∈ (Solidity.parseFileForSymbol fs collect cache filePath q t).1 ↔
        s ∈ (parseFileGen fs collect cache filePath).1.symbols ∧
          specSymbolMatch q t s = true)
    ∧ (s ∈ (Vue.parseFileForSymbol env fs cache filePath q t).1 ↔
        s ∈ (Vue.parseFile env fs cache filePath).1.symbols ∧
          specSymbolMatch q t s = true)
    ∧ (s ∈ (TS.parseFileForSymbol fs collect cache filePath q t).1 ↔
        s ∈ (parseFileGen fs collect cache filePath).1.symbols ∧
          ((s.name = q ∨ strIncludes s.name q = true) ∧
            ∀ t0, t = some t0 → s.kind = t0)) := by
  intro fs collect env cache filePath q t s
  have hspec : ciSymbolFilter q t s = specSymbolMatch q t s := rfl
  refine ⟨?_, ?_, ?_⟩
  · rw [Solidity.parseFileForSymbol]
    simp only [List.mem_filter, hspec]
  · rw [Vue.parseFileForSymbol]
    simp only [List.mem_filter, hspec]
  · rw [TS.parseFileForSymbol]
    simp only [List.mem_filter, tsSymbolFilter, Bool.and_eq_true, Bool.or_eq_true,
      beq_iff_eq]
    constructor
    · rintro ⟨hmem, ⟨hname, hkind⟩⟩
      refine ⟨hmem, hname, ?_⟩
      intro t0 ht
      rw [ht] at hkind
      simpa using hkind
    · rintro ⟨hmem, hname, hkind⟩
      refine ⟨hmem, hname, ?_⟩
      cases t with
      | none => simp
      | some t0 => simpa using hkind t0 rfl

/-- C5 amended witness: the case-insensitive extractors match the symbol
foo for the query FOO; instantiated through the membership
characterization at a concrete parse. -/
theorem parseFileForSymbol_filter_semantics_witness :
    mkSym "foo" "a.ts" 3 ∈
      (Solidity.parseFileForSymbol fsFoo collectFoo [] "a.ts" "FOO" none).1 :=
  (parseFileForSymbol_filter_semantics fsFoo collectFoo failingScriptVueEnv []
    "a.ts" "FOO" none (mkSym "foo" "a.ts" 3)).1.2 ⟨by decide, by decide⟩

/-- C4: searchFuzzy joins its four recall strategies with Promise.all
and no per-strategy catch, so one rejected strategy rejects the whole
call: with the alias strategy resolving to a nonempty candidate list
and the text strategy rejecting, searchFuzzy is an error, not the merge
of the remaining strategies; had all four resolved, it would have been
an ok value. -/
theorem searchFuzzy_promise_all_rejects :
    searchFuzzy (.ok [aliasHitCandidate]) (.ok []) (.ok [])
        (.error "spawn rg ENOENT") 20
      = .error "spawn rg ENOENT"
  ∧ (searchFuzzy (.ok [aliasHitCandidate]) (.ok []) (.ok [])
        (.error "spawn rg ENOENT") 20).isOk = false
  ∧ (searchFuzzy (.ok [aliasHitCandidate]) (.ok []) (.ok [])
        (.ok []) 20).isOk = true :=
  ⟨rfl, rfl, rfl⟩

lemma symbolRecallStep_preserves (query : String)
    (acc : List FuzzyResult × List String) (sym : SymbolInfo)
    (h1 : (acc.1.map candidateKey).Nodup)
    (h2 : ∀ c ∈ acc.1, candidateKey c ∈ acc.2) :
    ((symbolRecallStep query acc sym).1.map candidateKey).Nodup ∧
    (∀ c ∈ (symbolRecallStep query acc sym).1,
      candidateKey c ∈ (symbolRecallStep query acc sym).2) := by
  rw [symbolRecallStep]
  by_cases hc : acc.2.contains (sym.file ++ ":" ++ sym.name)
  · simp only [hc, if_true]
    exact ⟨h1, h2⟩
  · have hc2 : (sym.file ++ ":" ++ sym.name) ∉ acc.2 := by simpa using hc
    simp only [hc, Bool.false_eq_true, if_false]
    constructor
    · rw [List.map_append]
      rw [List.nodup_append]
      refine ⟨h1, by simp, ?_⟩
      intro k hk hk2
      simp only [List.map_cons, List.map_nil, List.mem_cons, List.not_mem_nil,
        or_false] at hk2
      rcases List.mem_map.1 hk with ⟨c, hcmem, hck⟩
      have : candidateKey c ∈ acc.2 := h2 c hcmem
      rw [hck, hk2] at this
      exact hc2 this
    · intro c hcm
      rcases List.mem_append.1 hcm with hin | hin
      · exact List.mem_append_left _ (h2 c hin)
      · simp only [List.mem_singleton] at hin
        rw [hin]
        exact List.mem_append_right _ (by simp [candidateKey])

lemma symbolRecall_fold_inv (query : String) :
    ∀ (syms : List SymbolInfo) (acc : List FuzzyResult × List String),
      (acc.1.map candidateKey).Nodup →
      (∀ c ∈ acc.1, candidateKey c ∈ acc.2) →
      ((syms.foldl (symbolRecallStep query) acc).1.map candidateKey).Nodup ∧
      (∀ c ∈ (syms.foldl (symbolRecallStep query) acc).1,
        candidateKey c ∈ (syms.foldl (symbolRecallStep query) acc).2) := by
  intro syms
  induction syms with
  | nil => intro acc h1 h2; exact ⟨h1, h2⟩
  | cons sym rest ih =>
    intro acc h1 h2
    rw [List.foldl_cons]
    have hstep := symbolRecallStep_preserves query acc sym h1 h2
    exact ih (symbolRecallStep query acc sym) hstep.1 hstep.2

lemma symbolRecall_variants_inv (env : SymbolSearchEnv) (query : String) :
    ∀ (variants : List String) (acc : List FuzzyResult × List String),
      (acc.1.map candidateKey).Nodup →
      (∀ c ∈ acc.1, candidateKey c ∈ acc.2) →
      (((variants.foldl
          (fun acc variant => (env.searchSymbol variant).foldl (symbolRecallStep query) acc)
          acc).1.map candidateKey).Nodup) := by
  intro variants
  induction variants with
  | nil => intro acc h1 _; exact h1
  | cons v rest ih =>
    intro acc h1 h2
    rw [List.foldl_cons]
    have hstep := symbolRecall_fold_inv query (env.searchSymbol v) acc h1 h2
    exact ih _ hstep.1 hstep.2

/-- C10: the symbol recall strategy deduplicates candidates by the
file:name key only, across all query variants: no two emitted
candidates share it, and when Symbol Search returns two symbols sharing
file and name at different start lines, only the first becomes a
candidate, at its own range, and the later one is dropped. -/
theorem symbolRecall_dedup_file_name :
    (∀ (env : SymbolSearchEnv) (query : String),
      ((symbolRecall env query).map candidateKey).Nodup)
  ∧ symbolRecall dupEnv "flipCard"
      = [{ file := "cards.ts", range := formatRange 10 11, symbol := some "flipCard",
           kind := some "function", score := 9/10, reasons := ["definition_exact"] }] := by
  constructor
  · intro env query
    rw [symbolRecall]
    exact symbolRecall_variants_inv env query (normalizeQuery query) ([], [])
      (by simp) (by simp)
  · rfl

/-- C8: in the compound-document extractor each tagged section parses
independently: the candidate symbols contributed by the template and
style sections are unchanged under any replacement of the script
section's extraction (including one that extracts nothing at all, the
total failure of that section), no file-level error is ever recorded
for a failing section, and concretely a .vue file whose script section
extraction fails completely still yields the component reference from
its template section. -/
theorem vue_sections_parse_independently :
    (∀ (s1 s2 : String → Nat → List SymbolInfo × List ExportInfo)
       (st : String → Nat → List SymbolInfo) (filePath : String) (blocks : SfcBlocks),
       (vueParseBlocks ⟨s1, st⟩ filePath blocks).symbols.drop
           (match blocks.script with
            | some b => (s1 b.content b.startLine).1.length
            | none => 0)
         = (vueParseBlocks ⟨s2, st⟩ filePath blocks).symbols.drop
           (match blocks.script with
            | some b => (s2 b.content b.startLine).1.length
            | none => 0)
       ∧ (vueParseBlocks ⟨s1, st⟩ filePath blocks).errors = [])
  ∧ (Vue.parseFile failingScriptVueEnv vueFs [] "Card.vue").1.symbols.map
      (fun s => (s.name, s.kind)) = [("A", "component")] := by
  constructor
  · intro s1 s2 st filePath blocks
    constructor
    · rw [vueParseBlocks, vueParseBlocks]
      cases hs : blocks.script with
      | none => simp
      | some b =>
        simp only [List.append_assoc]
        rw [List.drop_left, List.drop_left]
    · rfl
  · rfl

lemma dedupFirst_mem_aux : ∀ (l acc : List String) (t : String),
    (t ∈ l.foldl (fun acc r => if acc.contains r then acc else acc ++ [r]) acc ↔
      t ∈ acc ∨ t ∈ l) := by
  intro l
  induction l with
  | nil => intro acc t; simp
  | cons r rest ih =>
    intro acc t
    rw [List.foldl_cons]
    by_cases hr : acc.contains r
    · rw [if_pos hr]
      rw [ih]
      constructor
      · rintro (h | h)
        · exact Or.inl h
        · exact Or.inr (List.mem_cons_of_mem r h)
      · rintro (h | h)
        · exact Or.inl h
        · rcases List.mem_cons.1 h with h1 | h1
          · left; rw [h1]; simpa using hr
          · exact Or.inr h1
    · rw [if_neg hr]
      rw [ih]
      simp only [List.mem_append, List.mem_singleton, List.mem_cons]
      tauto

lemma dedupFirst_mem (l : List String) (t : String) :
    t ∈ dedupFirst l ↔ t ∈ l := by
  rw [dedupFirst, dedupFirst_mem_aux]
  simp

lemma mapLookup_none_keys {α : Type} (k : String) :
    ∀ (m : List (String × α)), mapLookup k m = none → k ∉ m.map Prod.fst := by
  intro m
  induction m with
  | nil => intro _; simp
  | cons kv rest ih =>
    intro h
    rw [mapLookup] at h
    by_cases hk : kv.1 == k
    · rw [if_pos hk] at h; exact absurd h (by simp)
    · rw [if_neg hk] at h
      simp only [List.map_cons, List.mem_cons]
      rintro (h1 | h1)
      · exact hk (by rw [h1]; simp)
      · exact ih h h1

lemma mapSet_keys_of_lookup {α : Type} (k : String) (v w : α) :
    ∀ (m : List (String × α)), mapLookup k m = some w →
      (mapSet k v m).map Prod.fst = m.map Prod.fst := by
  intro m
  induction m with
  | nil => intro h; simp [mapLookup] at h
  | cons kv rest ih =>
    intro h
    rw [mapLookup] at h
    rw [mapSet]
    by_cases hk : kv.1 == k
    · rw [if_pos hk]; simp
    · rw [if_neg hk] at h ⊢
      simp only [List.map_cons]
      rw [ih h]

lemma mem_mapSet_eq {α : Type} (k : String) (v : α) (kv : String × α) :
    ∀ (m : List (String × α)), kv ∈ mapSet k v m → kv = (k, v) ∨ kv ∈ m := by
  intro m
  induction m with
  | nil =>
    intro h
    rw [mapSet] at h
    rcases List.mem_cons.1 h with h1 | h1
    · left; rw [h1]
    · simp at h1
  | cons kv1 rest ih =>
    intro h
    rw [mapSet] at h
    by_cases hk : kv1.1 == k
    · rw [if_pos hk] at h
      rcases List.mem_cons.1 h with h1 | h1
      · left
        rw [h1]
        have : kv1.1 = k := by simpa using hk
        rw [this]
      · right; exact List.mem_cons_of_mem kv1 h1
    · rw [if_neg hk] at h
      rcases List.mem_cons.1 h with h1 | h1
      · right; exact h1 ▸ List.mem_cons_self kv1 rest
      · rcases ih h1 with h2 | h2
        · left; exact h2
        · right; exact List.mem_cons_of_mem kv1 h2

lemma mergeStep_wf (map : List (String × FuzzyResult)) (r : FuzzyResult)
    (h : MergedWF map) : MergedWF (mergeStep map r) := by
  rcases h with ⟨hnd, hkeys⟩
  cases hl : mapLookup (mergeKey r) map with
  | none =>
    simp only [mergeStep, hl]
    constructor
    · rw [List.map_append]
      rw [List.nodup_append]
      refine ⟨hnd, by simp, ?_⟩
      intro a ha ha2
      simp only [List.map_cons, List.map_nil, List.mem_cons, List.not_mem_nil,
        or_false] at ha2
      rw [ha2] at ha
      exact mapLookup_none_keys (mergeKey r) map hl ha
    · intro kv hkv
      rcases List.mem_append.1 hkv with h1 | h1
      · exact hkeys kv h1
      · simp only [List.mem_singleton] at h1
        rw [h1]
  | some existing =>
    simp only [mergeStep, hl]
    have hexist : mergeKey existing = mergeKey r := by
      have hmem := mapLookup_mem (mergeKey r) existing map hl
      exact hkeys (mergeKey r, existing) hmem
    by_cases hsc : existing.score < r.score
    · rw [if_pos hsc]
      constructor
      · rw [mapSet_keys_of_lookup (mergeKey r) _ existing map hl]
        exact hnd
      · intro kv hkv
        rcases mem_mapSet_eq (mergeKey r) _ kv map hkv with h1 | h1
        · rw [h1]
          rfl
        · exact hkeys kv h1
    · rw [if_neg hsc]
      constructor
      · rw [mapSet_keys_of_lookup (mergeKey r) _ existing map hl]
        exact hnd
      · intro kv hkv
        rcases mem_mapSet_eq (mergeKey r) _ kv map hkv with h1 | h1
        · rw [h1]
          show mergeKey { existing with reasons := dedupFirst (existing.reasons ++ r.reasons) } = mergeKey r
          rw [← hexist]
          rfl
        · exact hkeys kv h1

lemma foldl_mergeStep_wf (results : List FuzzyResult) :
    ∀ (map : List (String × FuzzyResult)), MergedWF map →
      MergedWF (results.foldl mergeStep map) := by
  induction results with
  | nil => intro map h; exact h
  | cons r rest ih =>
    intro map h
    rw [List.foldl_cons]
    exact ih (mergeStep map r) (mergeStep_wf map r h)

lemma nodup_countP_le_one : ∀ (ks : List String), ks.Nodup →
    ∀ (k : String), ks.countP (fun x => x == k) ≤ 1 := by
  intro ks
  induction ks with
  | nil => intro _ k; simp
  | cons a rest ih =>
    intro h k
    rcases List.nodup_cons.1 h with ⟨ha, hrest⟩
    rw [List.countP_cons]
    by_cases hk : a == k
    · have hzero : rest.countP (fun x => x == k) = 0 := by
        rw [List.countP_eq_zero]
        intro b hb
        simp only [beq_iff_eq]
        intro hbk
        have hak : a = k := by simpa using hk
        rw [hbk, ← hak] at hb
        exact ha hb
      simp [hk, hzero]
    · simp [hk]
      exact ih hrest k

/-- C3: merging two candidates that share the dedup key (file, location)
yields exactly one candidate for that key, carrying the maximum of the
two scores and the union of the two reason sets; and for any input the
merged list has at most one candidate per key, is sorted by descending
score, and is truncated to the requested limit. -/
theorem mergeAndSort_dedup_max_union :
    (∀ (r1 r2 : FuzzyResult) (limit : Nat),
       mergeKey r1 = mergeKey r2 → 1 ≤ limit →
       (mergeAndSort [r1, r2] limit).length = 1 ∧
       ∀ c ∈ mergeAndSort [r1, r2] limit,
         mergeKey c = mergeKey r1 ∧
         c.score = max r1.score r2.score ∧
         (∀ t, t ∈ c.reasons ↔ (t ∈ r1.reasons ∨ t ∈ r2.reasons)))
  ∧ (∀ (results : List FuzzyResult) (limit : Nat) (k : String),
       (mergeAndSort results limit).countP (fun c => mergeKey c == k) ≤ 1)
  ∧ (∀ (results : List FuzzyResult) (limit : Nat),
       (mergeAndSort results limit).Pairwise (fun a b => b.score ≤ a.score))
  ∧ (∀ (results : List FuzzyResult) (limit : Nat),
       (mergeAndSort results limit).length ≤ limit) := by
  refine ⟨?_, ?_, ?_, ?_⟩
  · intro r1 r2 limit hkey hlim
    have hbeq : (mergeKey r1 == mergeKey r2) = true := by rw [hkey]; simp
    have h1 : mergeStep [] r1 = [(mergeKey r1, r1)] := by
      simp [mergeStep, mapLookup]
    have hlk : mapLookup (mergeKey r2) [(mergeKey r1, r1)] = some r1 := by
      simp only [mapLookup, hbeq, if_true]
    have hfold : [r1, r2].foldl mergeStep [] =
        if r1.score < r2.score then
          [(mergeKey r1, { r2 with reasons := dedupFirst (r2.reasons ++ r1.reasons) })]
        else
          [(mergeKey r1, { r1 with reasons := dedupFirst (r1.reasons ++ r2.reasons) })] := by
      rw [List.foldl_cons, List.foldl_cons, List.foldl_nil, h1]
      simp only [mergeStep, hlk]
      by_cases hsc : r1.score < r2.score
      · rw [if_pos hsc, if_pos hsc]
        simp only [mapSet, hbeq, if_true]
      · rw [if_neg hsc, if_neg hsc]
        simp only [mapSet, hbeq, if_true]
    by_cases hsc : r1.score < r2.score
    · have hout : mergeAndSort [r1, r2] limit =
          [{ r2 with reasons := dedupFirst (r2.reasons ++ r1.reasons) }] := by
        simp only [mergeAndSort, hfold, if_pos hsc, List.map_cons, List.map_nil]
        rw [List.perm_singleton.1 (List.mergeSort_perm _ _)]
        exact List.take_of_length_le (by simpa using hlim)
      rw [hout]
      refine ⟨rfl, ?_⟩
      intro c hc
      rw [List.mem_singleton] at hc
      subst hc
      refine ⟨hkey.symm, ?_, ?_⟩
      · show r2.score = max r1.score r2.score
        rw [max_eq_right (le_of_lt hsc)]
      · intro t
        show t ∈ dedupFirst (r2.reasons ++ r1.reasons) ↔ _
        rw [dedupFirst_mem, List.mem_append]
        tauto
    · have hout : mergeAndSort [r1, r2] limit =
          [{ r1 with reasons := dedupFirst (r1.reasons ++ r2.reasons) }] := by
        simp only [mergeAndSort, hfold, if_neg hsc, List.map_cons, List.map_nil]
        rw [List.perm_singleton.1 (List.mergeSort_perm _ _)]
        exact List.take_of_length_le (by simpa using hlim)
      rw [hout]
      refine ⟨rfl, ?_⟩
      intro c hc
      rw [List.mem_singleton] at hc
      subst hc
      refine ⟨rfl, ?_, ?_⟩
      · show r1.score = max r1.score r2.score
        rw [max_eq_left (le_of_not_lt hsc)]
      · intro t
        show t ∈ dedupFirst (r1.reasons ++ r2.reasons) ↔ _
        rw [dedupFirst_mem, List.mem_append]
  · intro results limit k
    have hwf := foldl_mergeStep_wf results [] ⟨by simp, by simp⟩
    have h1 : ((results.foldl mergeStep []).map Prod.snd).countP
        (fun c => mergeKey c == k) ≤ 1 := by
      rw [List.countP_map]
      have hco : (results.foldl mergeStep []).countP
            ((fun c => mergeKey c == k) ∘ Prod.snd)
          = (results.foldl mergeStep []).countP ((fun x => x == k) ∘ Prod.fst) := by
        apply List.countP_congr
        intro kv hkv
        simp only [Function.comp]
        rw [hwf.2 kv hkv]
      rw [hco, ← List.countP_map]
      exact nodup_countP_le_one _ hwf.1 k
    simp only [mergeAndSort]
    calc ((((results.foldl mergeStep []).map Prod.snd).mergeSort
            (fun a b => decide (b.score ≤ a.score))).take limit).countP
            (fun c => mergeKey c == k)
        ≤ (((results.foldl mergeStep []).map Prod.snd).mergeSort
            (fun a b => decide (b.score ≤ a.score))).countP
            (fun c => mergeKey c == k) :=
          List.Sublist.countP_le _ (List.take_sublist _ _)
      _ = ((results.foldl mergeStep []).map Prod.snd).countP
            (fun c => mergeKey c == k) :=
          (List.mergeSort_perm _ _).countP_eq _
      _ ≤ 1 := h1
  · intro results limit
    simp only [mergeAndSort]
    apply List.Pairwise.sublist (List.take_sublist _ _)
    have hs := @List.sorted_mergeSort FuzzyResult
      (fun a b => decide (b.score ≤ a.score))
      (fun a b c hab hbc => by
        simp only [decide_eq_true_eq] at hab hbc ⊢
        exact le_trans hbc hab)
      (fun a b => by
        simp only [Bool.or_eq_true, decide_eq_true_eq]
        exact le_total b.score a.score)
      ((results.foldl mergeStep []).map Prod.snd)
    exact hs.imp (fun h => of_decide_eq_true h)
  · intro results limit
    simp only [mergeAndSort]
    exact List.length_take_le _ _

/-- C3 witness: the spec's example, scores 0.7 and 0.9 with reasons
definition_match and alias_hit at the same (file, location), merges to
one candidate with the maximum score and both reasons. -/
theorem mergeAndSort_dedup_max_union_witness :
    (mergeAndSort [definitionMatchCandidate, aliasMergeCandidate] 20).length = 1 ∧
    ∀ c ∈ mergeAndSort [definitionMatchCandidate, aliasMergeCandidate] 20,
      mergeKey c = mergeKey definitionMatchCandidate ∧
      c.score = max definitionMatchCandidate.score aliasMergeCandidate.score ∧
      (∀ t, t ∈ c.reasons ↔
        (t ∈ definitionMatchCandidate.reasons ∨ t ∈ aliasMergeCandidate.reasons)) :=
  mergeAndSort_dedup_max_union.1 definitionMatchCandidate aliasMergeCandidate 20
    rfl (by decide)
